import Mathlib

/-!
Verification model of the defibrillator startup supervisor.

Shallow embedding of the program's components:
* src/src/duration.rs    — duration literal parser
* src/src/rules/parsers.rs — rule grammar (port clause, tcp rule)
* src/src/rules/futures.rs — readiness probes and the AND/OR composition engine
* src/src/main.rs        — log fan-out reader, stdout mirror, retry loop,
                           and the starting-state race

Asynchronous probes are modelled by their completion tick (an Option Nat,
with none meaning the probe never becomes ready); channel receives and
pipe reads are modelled as explicit event lists fed to the state-passing
translation of each loop.  Bytes are Nat, durations are nanoseconds
(milliseconds where noted).
-/

namespace Defib

abbrev Byte := Nat

/-! ## Duration literal parser (src/src/duration.rs) -/

/-- ASCII-case-insensitive character comparison, as used by the
case-insensitive tag combinator in the source. -/
def lowerEq (a b : Char) : Bool := a.toLower == b.toLower

/-- Translation of tag_no_case: consume the tag from the front of the
input case-insensitively, returning the rest, or fail. -/
def tagNoCase : List Char → List Char → Option (List Char)
  | [], input => some input
  | _ :: _, [] => none
  | t :: ts, c :: cs => if lowerEq t c then tagNoCase ts cs else none

/-- Translation of three_tags: alternatives tried plural, then singular,
then short, exactly as the source orders them. -/
def threeTags (short singular plural : List Char) (input : List Char) :
    Option (List Char) :=
  match tagNoCase plural input with
  | some rest => some rest
  | none =>
    match tagNoCase singular input with
    | some rest => some rest
    | none => tagNoCase short input

/-- Short tag of the microsecond unit exactly as it is stored in
src/src/duration.rs line 49: the two characters U+00CE and U+00BC
followed by the letter s (a double-UTF-8-encoding of the greek letter mu
followed by s). -/
def muShort : List Char := [Char.ofNat 206, Char.ofNat 188, 's']

/-- Translation of parse_duration_suffix: four unit families in source
order, each producing the unit's base duration in nanoseconds. -/
def parse_duration_suffix (input : List Char) : Option (Nat × List Char) :=
  match threeTags ['s'] "second".data "seconds".data input with
  | some rest => some (1000000000, rest)
  | none =>
    match threeTags "ms".data "millisecond".data "milliseconds".data input with
    | some rest => some (1000000, rest)
    | none =>
      match threeTags muShort "microsecond".data "microseconds".data input with
      | some rest => some (1000, rest)
      | none =>
        match threeTags ['m'] "minute".data "minutes".data input with
        | some rest => some (60000000000, rest)
        | none => none

/-- Characters accepted by nom's space0/space1 (space and tab). -/
def isSpaceTab (c : Char) : Bool := c == ' ' || c == '\t'

/-- Numeric value of a digit run. -/
def digitsToNat (ds : List Char) : Nat :=
  ds.foldl (fun a c => a * 10 + (c.toNat - 48)) 0

/-- Translation of digit0.parse_from_str::<u32>: an empty digit run or a
value overflowing u32 is a parse failure. -/
def parseU32 (ds : List Char) : Option Nat :=
  if ds = [] then none
  else if digitsToNat ds < 4294967296 then some (digitsToNat ds) else none

/-- Translation of parse_duration: leading digit run through u32, optional
whitespace, then the unit suffix; the value is units * count in
nanoseconds. -/
def parse_duration (input : List Char) : Option (Nat × List Char) :=
  let ds := input.takeWhile Char.isDigit
  let rest := input.dropWhile Char.isDigit
  match parseU32 ds with
  | none => none
  | some count =>
    match parse_duration_suffix (rest.dropWhile isSpaceTab) with
    | none => none
    | some (base, rest2) => some (base * count, rest2)

/-- Translation of the FromStr impl: final_parser requires the whole input
to be consumed. -/
def durationFromStr (s : String) : Option Nat :=
  match parse_duration s.data with
  | some (v, []) => some v
  | _ => none

/-! ## Rule grammar: port clause and the tcp rule (src/src/rules/parsers.rs) -/

/-- Translation of nom's space1: at least one space or tab, consumed. -/
def space1 (input : List Char) : Option (List Char) :=
  match input with
  | c :: cs => if isSpaceTab c then some (cs.dropWhile isSpaceTab) else none
  | [] => none

/-- Translation of digit1: a non-empty maximal digit run. -/
def digit1 (input : List Char) : Option (List Char × List Char) :=
  let ds := input.takeWhile Char.isDigit
  if ds = [] then none else some (ds, input.dropWhile Char.isDigit)

/-- Translation of parse_port: the keyword port, whitespace, then a digit
run parsed as a NonZeroU16 — so the run must denote a value between 1
and 65535. -/
def parse_port (input : List Char) : Option (Nat × List Char) :=
  match tagNoCase "port".data input with
  | none => none
  | some r1 =>
    match space1 r1 with
    | none => none
    | some r2 =>
      match digit1 r2 with
      | none => none
      | some (ds, r3) =>
        let n := digitsToNat ds
        if 1 ≤ n ∧ n ≤ 65535 then some (n, r3) else none

/-- Translation of parse_tcp: tcp, whitespace, port clause, whitespace,
ready. -/
def parse_tcp (input : List Char) : Option (Nat × List Char) :=
  match tagNoCase "tcp".data input with
  | none => none
  | some r1 =>
    match space1 r1 with
    | none => none
    | some r2 =>
      match parse_port r2 with
      | none => none
      | some (port, r3) =>
        match space1 r3 with
        | none => none
        | some r4 =>
          match tagNoCase "ready".data r4 with
          | none => none
          | some r5 => some (port, r5)

/-! ## Retry loop (src/src/main.rs, main) -/

/-- Terminal result of one supervised attempt. -/
inductive RunServerOutcome
  | DidntSpawn
  | ExitedWhileStarting
  | TimedOutWhileStarting
  | ExitedWhileReady
deriving DecidableEq

/-- Update of the attempts counter after one outcome, exactly as the match
in main does it. -/
def stepAttempts (attempts : Nat) : RunServerOutcome → Nat
  | .DidntSpawn => attempts + 1
  | .ExitedWhileStarting => attempts + 1
  | .TimedOutWhileStarting => attempts + 1
  | .ExitedWhileReady => 0

/-- Translation of the supervise loop in main.  Each list element is the
outcome of one launched attempt.  Returns the number of attempts
launched, and some finalAttempts if the loop returned (ceiling reached),
or none if it ran out of scripted outcomes while still intending to
relaunch. -/
def mainLoop (retries : Option Nat) (attempts : Nat) :
    List RunServerOutcome → Nat × Option Nat
  | [] => (0, none)
  | o :: rest =>
    let a := stepAttempts attempts o
    match retries with
    | some r =>
      if r ≤ a then (1, some a)
      else
        let res := mainLoop (some r) a rest
        (res.1 + 1, res.2)
    | none =>
      let res := mainLoop none a rest
      (res.1 + 1, res.2)

/-- Outcomes that the claim describes as a failure to start; exactly these
increment the attempts counter. -/
def isStartFailure : RunServerOutcome → Bool
  | .ExitedWhileReady => false
  | _ => true

/-! ## Log fan-out reader and stdout mirror (src/src/main.rs, handle_stdout) -/

/-- Result of one read_buf call on the child stdout pipe.  A chunk lists
the bytes appended to the buffer (an empty chunk is Ok(0), end of
stream). -/
inductive ReadEvent
  | chunk (bs : List Byte)
  | interrupted
  | fatal
deriving DecidableEq

/-- How the read task ended.  panicked records the out-of-range slice
buffer[count..n] taken when count exceeds n; outOfInput means the
scripted events ran out while the loop would have kept reading. -/
inductive ReadExit
  | ok
  | ioError
  | panicked
  | outOfInput
deriving DecidableEq

/-- Translation of memchr(b'\n', ...): index of the first newline byte. -/
def memchrNl : List Byte → Option Nat
  | [] => none
  | b :: bs => if b = 10 then some 0 else (memchrNl bs).map (· + 1)

/-- Translation of the read_task loop in handle_stdout, with the buffer,
the count of unconsumed bytes and the lines broadcast so far as explicit
state.  The slice buffer[count..n], the single memchr per read and the
early returns are reproduced exactly as written in the source. -/
def read_task_go :
    List Byte → Nat → List (List Byte) → List ReadEvent →
    List (List Byte) × ReadExit
  | _, _, sent, [] => (sent, .outOfInput)
  | buffer, count, sent, .interrupted :: rest => read_task_go buffer count sent rest
  | _, _, sent, .fatal :: _ => (sent, .ioError)
  | buffer, count, sent, .chunk bs :: rest =>
    if bs.length = 0 then (sent, .ok)
    else
      let n := bs.length
      let buffer1 := buffer ++ bs
      if n < count then (sent, .panicked)
      else
        let newBytes := (buffer1.drop count).take (n - count)
        let count1 := count + n
        match memchrNl newBytes with
        | none => read_task_go buffer1 count1 sent rest
        | some idx =>
          let lineLength := count1 - n + idx + 1
          read_task_go (buffer1.drop lineLength) (count1 - lineLength)
            (sent ++ [buffer1.take lineLength]) rest

/-- Entry point of the read side of handle_stdout: empty buffer, zero
count, nothing sent. -/
def read_task (events : List ReadEvent) : List (List Byte) × ReadExit :=
  read_task_go [] 0 [] events

/-- Bytes a list of read events delivers. -/
def eventsBytes : List ReadEvent → List Byte
  | [] => []
  | .chunk bs :: rest => bs ++ eventsBytes rest
  | .interrupted :: rest => eventsBytes rest
  | .fatal :: rest => eventsBytes rest

/-- One result of recv() on a broadcast subscription. -/
inductive RecvEvent
  | line (l : List Byte)
  | lagged (n : Nat)
  | closed
deriving DecidableEq

/-- Lines successfully received before the channel closes (lag events are
skipped; nothing is received after Closed). -/
def recvOkLines : List RecvEvent → List (List Byte)
  | [] => []
  | .line l :: rest => l :: recvOkLines rest
  | .lagged _ :: rest => recvOkLines rest
  | .closed :: _ => []

/-- Translation of the stdout_task loop in handle_stdout: write every
received line, skip lag notifications, flush and return on Closed.
Returns the bytes written and whether the flush-and-return path ran. -/
def stdout_task : List RecvEvent → List Byte × Bool
  | [] => ([], false)
  | .line l :: rest =>
    let r := stdout_task rest
    (l ++ r.1, r.2)
  | .lagged _ :: rest => stdout_task rest
  | .closed :: _ => ([], true)

/-! ## Matches probe (src/src/rules/futures.rs, Matches::wait) -/

/-- How a run of the Matches probe on a finite event script ends.
suspendedForever models the pending().await taken on Closed: the future
never completes. -/
inductive MatchesOutcome
  | matched
  | suspendedForever
  | outOfInput
deriving DecidableEq

/-- Translation of Matches::wait: test each received line, return on the
first match; on Closed suspend forever; on Lagged log and continue the
loop (the code only logs, although its comment announces a panic). -/
def matches_wait (isMatch : List Byte → Bool) : List RecvEvent → MatchesOutcome
  | [] => .outOfInput
  | .line l :: rest =>
    if isMatch l then .matched else matches_wait isMatch rest
  | .lagged _ :: rest => matches_wait isMatch rest
  | .closed :: _ => .suspendedForever

/-! ## AND/OR composition engine (src/src/rules/futures.rs)

A probe is abstracted by its completion tick: some t means it signals
ready at tick t, none means it never signals.  FuturesUnordered
combined with collect completes when every member has completed;
combined with next it completes when the first member does, and dropping
the collection at that instant cancels every other member. -/

/-- Completion tick of two concurrent futures joined by collect: the later
of the two, never if either never completes. -/
def joinTime : Option Nat → Option Nat → Option Nat
  | some a, some b => some (max a b)
  | _, _ => none

/-- Completion tick of FuturesUnordered::collect over a list of member
futures. -/
def collectTime (fs : List (Option Nat)) : Option Nat :=
  fs.foldr joinTime (some 0)

/-- Completion tick of racing two futures: the earlier of the two. -/
def raceTime2 : Option Nat → Option Nat → Option Nat
  | some a, some b => some (min a b)
  | some a, none => some a
  | none, b => b

/-- Completion tick of FuturesUnordered::next over a list of member
futures: ready as soon as any single member is. -/
def raceTime (fs : List (Option Nat)) : Option Nat :=
  fs.foldr raceTime2 none

/-- Translation of AndRules::wait: a single rule is popped and awaited
directly; otherwise all member probes run concurrently under collect. -/
def and_rules_wait (rules : List (Option Nat)) : Option Nat :=
  match rules with
  | [r] => r
  | rs => collectTime rs

/-- Translation of OrRules::wait: a single group is popped and awaited
directly; otherwise all groups run concurrently and the first completion
wins. -/
def or_rules_wait (groups : List (List (Option Nat))) : Option Nat :=
  match groups with
  | [g] => and_rules_wait g
  | gs => raceTime (gs.map and_rules_wait)

/-- Index of the first member completing at tick T, the member that
futures.next() yields. -/
def findTimeIdx (T : Nat) : List (Option Nat) → Option Nat
  | [] => none
  | t :: ts => if t = some T then some 0 else (findTimeIdx T ts).map (· + 1)

/-- Tick at which each member group of an OrRules race is dropped: the
winner is returned (never dropped by the race itself), every other group
is dropped the instant the race completes; nothing is dropped while the
race is still running, and a delegated single group has no sibling to
drop. -/
def or_dropped_at (groups : List (List (Option Nat))) : List (Option Nat) :=
  match groups with
  | [_] => [none]
  | gs =>
    let ts := gs.map and_rules_wait
    match raceTime ts with
    | none => gs.map fun _ => none
    | some T =>
      match findTimeIdx T ts with
      | none => gs.map fun _ => none
      | some w => (List.range gs.length).map fun i => if i = w then none else some T

/-! ## Starting-state race (src/src/main.rs, run_server) -/

/-- Branch of the select_biased race in the Starting state. -/
inductive StartBranch
  | rulesReady
  | childExited
  | timedOut
deriving DecidableEq

/-- Earlier of two optional completion ticks. -/
def minOpt : Option Nat → Option Nat → Option Nat
  | some a, some b => some (min a b)
  | some a, none => some a
  | none, b => b

/-- Translation of the select_biased block of run_server: the race
completes at the earliest ready tick, and when several futures are ready
at that same tick the branch is chosen in source order — rules first,
then child exit, then the timeout. -/
def select_biased_start (rules childExit timeoutFut : Option Nat) :
    Option (Nat × StartBranch) :=
  match minOpt rules (minOpt childExit timeoutFut) with
  | none => none
  | some T =>
    if rules = some T then some (T, .rulesReady)
    else if childExit = some T then some (T, .childExited)
    else some (T, .timedOut)

/-- Translation of the starting_timeout future construction: a configured
timeout is a sleep until now + duration, an absent one is pending()
and never completes. -/
def starting_timeout_fut (config : Option Nat) (now : Nat) : Option Nat :=
  match config with
  | some d => some (now + d)
  | none => none

/-! ## HTTP family probes (src/src/rules/futures.rs and descriptors.rs) -/

/-- Request the http family probe builds: its URL and per-request timeout
in seconds. -/
structure HttpRequest where
  url : String
  timeoutSecs : Nat
deriving DecidableEq

/-- Translation of the request built at the top of http_family_ready. -/
def http_request_for (protocol : String) (port : Nat) : HttpRequest :=
  { url := protocol ++ "://127.0.0.1:" ++ toString port, timeoutSecs := 60 }

/-- Request issued by Http::wait, which calls http_family_ready with the
protocol string http. -/
def http_wait_request (port : Nat) : HttpRequest := http_request_for "http" port

/-- Request issued by Https::wait, which also calls http_family_ready with
the protocol string http. -/
def https_wait_request (port : Nat) : HttpRequest := http_request_for "http" port

/-- Translation of Http::build in descriptors.rs: default port 80. -/
def http_build_port (port : Option Nat) : Nat := port.getD 80

/-- Translation of Https::build in descriptors.rs: default port 443. -/
def https_build_port (port : Option Nat) : Nat := port.getD 443

/-- Result of one send() of the HEAD request: a response with some status
code, or a transport error; durMs is how long the attempt took in
milliseconds. -/
inductive HttpAttempt
  | response (status : Nat) (durMs : Nat)
  | transportError (durMs : Nat)
deriving DecidableEq

/-- Translation of the retry loop of http_family_ready: now is the instant
captured at the top of the loop; any response returns ready; on error
the loop sleeps until one second past that instant before retrying.
Returns the start instants (in milliseconds) of the attempts made and
whether the probe signalled ready. -/
def http_family_run (now : Nat) : List HttpAttempt → List Nat × Bool
  | [] => ([], false)
  | .response _ _ :: _ => ([now], true)
  | .transportError d :: rest =>
    let r := http_family_run (max (now + d) (now + 1000)) rest
    (now :: r.1, r.2)

/-- Decidable form of the hypothesis that no line received in a list of
events matches the probe's pattern. -/
def noLineMatches (isMatch : List Byte → Bool) (evts : List RecvEvent) : Bool :=
  evts.all fun e =>
    match e with
    | .line l => !(isMatch l)
    | _ => true

/-- Decidable form of the hypothesis that every line a subscriber receives
is among the given broadcast lines. -/
def recvLinesFrom (evts : List RecvEvent) (lines : List (List Byte)) : Bool :=
  evts.all fun e =>
    match e with
    | .line l => lines.elem l
    | _ => true

/-! ## Helper lemmas -/

theorem stepAttempts_of_failure {o : RunServerOutcome}
    (h : isStartFailure o = true) (a : Nat) : stepAttempts a o = a + 1 := by
  cases o <;> first | rfl | simp [isStartFailure] at h

theorem mainLoop_fail_exact :
    ∀ (outs : List RunServerOutcome) (N a : Nat), a < N → N - a ≤ outs.length →
      (∀ o ∈ outs, isStartFailure o = true) →
      mainLoop (some N) a outs = (N - a, some N) := by
  intro outs
  induction outs with
  | nil =>
    intro N a h1 h2 _
    simp only [List.length_nil] at h2
    omega
  | cons o rest ih =>
    intro N a h1 h2 hall
    have ho : isStartFailure o = true := hall o (List.mem_cons_self o rest)
    have hstep := stepAttempts_of_failure ho a
    simp only [mainLoop, hstep]
    by_cases hr : N ≤ a + 1
    · have hN : N = a + 1 := by omega
      simp [hr, hN]
    · have h1' : a + 1 < N := by omega
      have h2' : N - (a + 1) ≤ rest.length := by
        simp only [List.length_cons] at h2; omega
      have hrec := ih N (a + 1) h1' h2'
        (fun o' ho' => hall o' (List.mem_cons_of_mem _ ho'))
      simp only [hr, if_false, hrec]
      have : N - (a + 1) + 1 = N - a := by omega
      simp [this]

theorem digit_not_spaceTab {c : Char} (h : c.isDigit = true) :
    isSpaceTab c = false := by
  cases hc : isSpaceTab c
  · rfl
  · exfalso
    simp only [isSpaceTab, Bool.or_eq_true, beq_iff_eq] at hc
    rcases hc with rfl | rfl <;> simp at h

theorem takeWhile_all_append {α : Type} (p : α → Bool) :
    ∀ (ds r : List α), (∀ c ∈ ds, p c = true) →
      (∀ c cs, r = c :: cs → p c = false) →
      (ds ++ r).takeWhile p = ds ∧ (ds ++ r).dropWhile p = r := by
  intro ds
  induction ds with
  | nil =>
    intro r _ hr
    cases r with
    | nil => exact ⟨rfl, rfl⟩
    | cons c cs =>
      simp [List.takeWhile_cons, List.dropWhile_cons, hr c cs rfl]
  | cons d ds ih =>
    intro r hall hr
    have hd : p d = true := hall d (List.mem_cons_self d ds)
    have hrest := ih r (fun c hc => hall c (List.mem_cons_of_mem _ hc)) hr
    simp [List.takeWhile_cons, List.dropWhile_cons, hd, hrest.1, hrest.2]

theorem digit1_digits_append (ds r : List Char)
    (h : ∀ c ∈ ds, c.isDigit = true)
    (hr : ∀ c cs, r = c :: cs → c.isDigit = false) :
    digit1 (ds ++ r) = if ds = [] then none else some (ds, r) := by
  have hsplit := takeWhile_all_append Char.isDigit ds r h hr
  simp only [digit1, hsplit.1, hsplit.2]

theorem parse_port_digits (ds : List Char) (h : ∀ c ∈ ds, c.isDigit = true) :
    parse_port ("port ".data ++ (ds ++ ' ' :: "ready".data)) =
      if 1 ≤ digitsToNat ds ∧ digitsToNat ds ≤ 65535
      then some (digitsToNat ds, ' ' :: "ready".data) else none := by
  have hd1 := digit1_digits_append ds (' ' :: "ready".data) h
    (by intro c cs hc; cases hc; decide)
  simp only [parse_port]
  rw [show tagNoCase "port".data ("port ".data ++ (ds ++ ' ' :: "ready".data)) =
      some (' ' :: (ds ++ ' ' :: "ready".data)) from rfl]
  dsimp only
  rw [show space1 (' ' :: (ds ++ ' ' :: "ready".data)) =
      some ((ds ++ ' ' :: "ready".data).dropWhile isSpaceTab) from rfl]
  dsimp only
  cases ds with
  | nil =>
    simp [digitsToNat]
    decide
  | cons d ds =>
    have hnd := digit_not_spaceTab (h d (List.mem_cons_self d ds))
    rw [show ((d :: ds) ++ ' ' :: "ready".data).dropWhile isSpaceTab =
        (d :: ds) ++ ' ' :: "ready".data by
      simp [List.dropWhile_cons, hnd]]
    rw [hd1]
    simp

theorem mainLoop_none_snd :
    ∀ (outs : List RunServerOutcome) (a : Nat), (mainLoop none a outs).2 = none := by
  intro outs
  induction outs with
  | nil => intro a; rfl
  | cons o rest ih => intro a; simp only [mainLoop]; exact ih _

theorem http_family_run_head (now : Nat) (ats : List HttpAttempt) :
    (http_family_run now ats).1 = [] ∨ (http_family_run now ats).1.head? = some now := by
  cases ats with
  | nil => exact Or.inl rfl
  | cons a rest => cases a <;> exact Or.inr rfl

theorem http_family_run_chain (ats : List HttpAttempt) :
    ∀ now : Nat, List.Chain' (fun a b => a + 1000 ≤ b) (http_family_run now ats).1 := by
  induction ats with
  | nil => intro now; simp [http_family_run]
  | cons a rest ih =>
    intro now
    cases a with
    | response s d => simp [http_family_run]
    | transportError d =>
      simp only [http_family_run]
      rw [List.chain'_cons']
      refine ⟨?_, ih _⟩
      intro y hy
      rcases http_family_run_head (max (now + d) (now + 1000)) rest with he | hh
      · simp [he] at hy
      · rw [hh] at hy
        simp only [Option.mem_def, Option.some.injEq] at hy
        omega

theorem http_family_run_ready_iff (ats : List HttpAttempt) :
    ∀ now : Nat, ((http_family_run now ats).2 = true ↔
      ∃ s d, HttpAttempt.response s d ∈ ats) := by
  induction ats with
  | nil => intro now; simp [http_family_run]
  | cons a rest ih =>
    intro now
    cases a with
    | response s d =>
      simp only [http_family_run]
      simp only [List.mem_cons]
      constructor
      · intro _; exact ⟨s, d, Or.inl rfl⟩
      · intro _; trivial
    | transportError d =>
      simp only [http_family_run]
      rw [ih]
      constructor
      · rintro ⟨s, d', hm⟩; exact ⟨s, d', List.mem_cons_of_mem _ hm⟩
      · rintro ⟨s, d', hm⟩
        rcases List.mem_cons.mp hm with hh | ht
        · exact absurd hh (by simp)
        · exact ⟨s, d', ht⟩

theorem collectTime_cons (f : Option Nat) (fs : List (Option Nat)) :
    collectTime (f :: fs) = joinTime f (collectTime fs) := rfl

theorem raceTime_cons (f : Option Nat) (fs : List (Option Nat)) :
    raceTime (f :: fs) = raceTime2 f (raceTime fs) := rfl

theorem collectTime_none : ∀ (fs : List (Option Nat)),
    collectTime fs = none ↔ none ∈ fs := by
  intro fs
  induction fs with
  | nil => simp [collectTime]
  | cons f fs ih =>
    rw [collectTime_cons]
    cases f with
    | none => simp [joinTime]
    | some a =>
      cases hcs : collectTime fs with
      | none => simp [joinTime, hcs, List.mem_cons, ih.mp hcs]
      | some b =>
        have hnm : none ∉ fs := fun hm => by
          rw [ih.mpr hm] at hcs; cases hcs
        simp [joinTime, hcs, List.mem_cons, hnm]

theorem collectTime_spec : ∀ (fs : List (Option Nat)) (T : Nat),
    collectTime fs = some T ↔
      (∀ f ∈ fs, ∃ u, f = some u ∧ u ≤ T) ∧ (T = 0 ∨ ∃ f ∈ fs, f = some T) := by
  intro fs
  induction fs with
  | nil =>
    intro T
    simp only [collectTime, List.foldr_nil, Option.some.injEq, List.not_mem_nil]
    constructor
    · intro h; exact ⟨by simp, Or.inl h.symm⟩
    · rintro ⟨-, h | h⟩
      · exact h.symm
      · simp at h
  | cons f fs ih =>
    intro T
    rw [collectTime_cons]
    cases f with
    | none =>
      simp only [joinTime]
      constructor
      · intro h; cases h
      · rintro ⟨hall, -⟩
        obtain ⟨u, hu, -⟩ := hall none (List.mem_cons_self _ _)
        cases hu
    | some a =>
      cases hcs : collectTime fs with
      | none =>
        simp only [joinTime]
        have hmem : none ∈ fs := (collectTime_none fs).mp hcs
        constructor
        · intro h; cases h
        · rintro ⟨hall, -⟩
          obtain ⟨u, hu, -⟩ := hall none (List.mem_cons_of_mem _ hmem)
          cases hu
      | some b =>
        simp only [joinTime, Option.some.injEq]
        have ihb := (ih b).mp hcs
        constructor
        · rintro rfl
          refine ⟨?_, ?_⟩
          · intro g hg
            rcases List.mem_cons.mp hg with rfl | hg'
            · exact ⟨a, rfl, Nat.le_max_left a b⟩
            · obtain ⟨u, hu, hub⟩ := ihb.1 g hg'
              exact ⟨u, hu, le_trans hub (Nat.le_max_right a b)⟩
          · rcases max_choice a b with hm | hm
            · exact Or.inr ⟨some a, List.mem_cons_self _ _, by rw [hm]⟩
            · rcases ihb.2 with hb0 | ⟨g, hg, hgb⟩
              · exact Or.inl (by omega)
              · exact Or.inr ⟨g, List.mem_cons_of_mem _ hg, by rw [hm, hgb]⟩
        · rintro ⟨hall, hat⟩
          have haT : a ≤ T := by
            obtain ⟨ua, hua, h⟩ := hall (some a) (List.mem_cons_self _ _)
            injection hua with h'
            omega
          have hbT : b ≤ T := by
            rcases ihb.2 with hb0 | ⟨g, hg, hgb⟩
            · omega
            · obtain ⟨u, hu, huT⟩ := hall g (List.mem_cons_of_mem _ hg)
              rw [hgb] at hu
              injection hu with h'
              omega
          have hTm : T ≤ max a b := by
            rcases hat with rfl | ⟨g, hg, hgT⟩
            · exact Nat.zero_le _
            · rcases List.mem_cons.mp hg with h' | hg'
              · rw [hgT] at h'
                injection h' with h''
                omega
              · obtain ⟨u, hu, hub⟩ := ihb.1 g hg'
                rw [hgT] at hu
                injection hu with h'
                omega
          omega

theorem raceTime_none : ∀ (fs : List (Option Nat)),
    raceTime fs = none ↔ ∀ f ∈ fs, f = none := by
  intro fs
  induction fs with
  | nil => simp [raceTime]
  | cons f fs ih =>
    rw [raceTime_cons]
    cases f with
    | none =>
      rw [show raceTime2 none (raceTime fs) = raceTime fs by
        cases raceTime fs <;> rfl]
      rw [ih]
      constructor
      · intro hall g hg
        rcases List.mem_cons.mp hg with rfl | hg'
        · rfl
        · exact hall g hg'
      · intro hall g hg
        exact hall g (List.mem_cons_of_mem _ hg)
    | some a =>
      constructor
      · intro h
        exfalso
        cases hcs : raceTime fs with
        | none => rw [hcs] at h; exact Option.noConfusion h
        | some b => rw [hcs] at h; exact Option.noConfusion h
      · intro hall
        exact absurd (hall (some a) (List.mem_cons_self _ _)) (by simp)

theorem raceTime_spec : ∀ (fs : List (Option Nat)) (T : Nat),
    raceTime fs = some T ↔
      some T ∈ fs ∧ ∀ u, some u ∈ fs → T ≤ u := by
  intro fs
  induction fs with
  | nil => simp [raceTime]
  | cons f fs ih =>
    intro T
    rw [raceTime_cons]
    cases f with
    | none =>
      rw [show raceTime2 none (raceTime fs) = raceTime fs by
        cases raceTime fs <;> rfl]
      rw [ih T]
      constructor
      · rintro ⟨hm, hb⟩
        refine ⟨List.mem_cons_of_mem _ hm, ?_⟩
        intro u hu
        rcases List.mem_cons.mp hu with h | h
        · exact Option.noConfusion h
        · exact hb u h
      · rintro ⟨hm, hb⟩
        rcases List.mem_cons.mp hm with h | h
        · exact Option.noConfusion h
        · exact ⟨h, fun u hu => hb u (List.mem_cons_of_mem _ hu)⟩
    | some a =>
      cases hcs : raceTime fs with
      | none =>
        have hnone : ∀ g ∈ fs, g = none := (raceTime_none fs).mp hcs
        rw [show raceTime2 (some a) none = some a from rfl]
        constructor
        · intro h
          injection h with ha
          subst ha
          refine ⟨List.mem_cons_self _ _, ?_⟩
          intro u hu
          rcases List.mem_cons.mp hu with h' | h'
          · injection h' with h''; omega
          · exact absurd (hnone _ h') (by simp)
        · rintro ⟨hm, hb⟩
          have hta : T ≤ a := hb a (List.mem_cons_self _ _)
          rcases List.mem_cons.mp hm with h' | h'
          · exact h'.symm
          · exact absurd (hnone _ h') (by simp)
      | some b =>
        have ihb := (ih b).mp hcs
        rw [show raceTime2 (some a) (some b) = some (min a b) from rfl]
        constructor
        · intro h
          injection h with ha
          subst ha
          refine ⟨?_, ?_⟩
          · rcases min_choice a b with hm | hm
            · rw [hm]; exact List.mem_cons_self _ _
            · rw [hm]; exact List.mem_cons_of_mem _ ihb.1
          · intro u hu
            rcases List.mem_cons.mp hu with h' | h'
            · injection h' with h''
              omega
            · have := ihb.2 u h'
              omega
        · rintro ⟨hm, hb⟩
          have haT : T ≤ a := hb a (List.mem_cons_self _ _)
          have hbT : T ≤ b := hb b (List.mem_cons_of_mem _ ihb.1)
          have hmin : min a b ≤ T := by
            rcases List.mem_cons.mp hm with h' | h'
            · injection h' with h''; omega
            · have := ihb.2 T h'
              omega
          have hTm : T = min a b := by omega
          rw [hTm]

theorem and_rules_wait_spec (rules : List (Option Nat)) (T : Nat)
    (hne : rules ≠ []) :
    and_rules_wait rules = some T ↔
      (∀ f ∈ rules, ∃ u, f = some u ∧ u ≤ T) ∧ ∃ f ∈ rules, f = some T := by
  match rules with
  | [] => exact absurd rfl hne
  | [r] =>
    rw [show and_rules_wait [r] = r from rfl]
    constructor
    · rintro rfl
      refine ⟨?_, some T, List.mem_singleton.mpr rfl, rfl⟩
      intro f hf
      rw [List.mem_singleton.mp hf]
      exact ⟨T, rfl, le_refl _⟩
    · rintro ⟨-, f, hf, hfT⟩
      exact (List.mem_singleton.mp hf) ▸ hfT
  | r1 :: r2 :: rs =>
    rw [show and_rules_wait (r1 :: r2 :: rs) = collectTime (r1 :: r2 :: rs) from rfl]
    rw [collectTime_spec]
    constructor
    · rintro ⟨hall, hat⟩
      refine ⟨hall, ?_⟩
      rcases hat with rfl | hat
      · obtain ⟨u, hu, hu0⟩ := hall r1 (List.mem_cons_self _ _)
        obtain rfl : u = 0 := by omega
        exact ⟨r1, List.mem_cons_self _ _, hu⟩
      · exact hat
    · rintro ⟨hall, hat⟩
      exact ⟨hall, Or.inr hat⟩

theorem or_rules_wait_spec (gs : List (List (Option Nat))) (T : Nat) :
    or_rules_wait gs = some T ↔
      (∃ g ∈ gs, and_rules_wait g = some T) ∧
        ∀ g ∈ gs, ∀ u, and_rules_wait g = some u → T ≤ u := by
  match gs with
  | [] =>
    rw [show or_rules_wait [] = raceTime ([].map and_rules_wait) from rfl]
    simp [raceTime]
  | [g] =>
    simp only [or_rules_wait, List.mem_singleton]
    constructor
    · intro h
      refine ⟨⟨g, rfl, h⟩, ?_⟩
      rintro g' rfl u hu
      rw [h] at hu
      cases hu
      exact le_refl _
    · rintro ⟨⟨g', rfl, h⟩, -⟩
      exact h
  | g1 :: g2 :: gs' =>
    rw [show or_rules_wait (g1 :: g2 :: gs') =
        raceTime ((g1 :: g2 :: gs').map and_rules_wait) from rfl]
    rw [raceTime_spec]
    simp only [List.mem_map]
    constructor
    · rintro ⟨⟨g, hg, hgT⟩, hb⟩
      exact ⟨⟨g, hg, hgT⟩, fun g' hg' u hu => hb u ⟨g', hg', hu⟩⟩
    · rintro ⟨⟨g, hg, hgT⟩, hb⟩
      exact ⟨⟨g, hg, hgT⟩, fun u ⟨g', hg', hu⟩ => hb g' hg' u hu⟩

theorem findTimeIdx_get (T : Nat) :
    ∀ (ts : List (Option Nat)) (w : Nat), findTimeIdx T ts = some w →
      ts[w]? = some (some T) := by
  intro ts
  induction ts with
  | nil => intro w h; cases h
  | cons t ts ih =>
    intro w h
    simp only [findTimeIdx] at h
    by_cases ht : t = some T
    · rw [if_pos ht] at h
      cases h
      simp [ht]
    · rw [if_neg ht] at h
      cases hf : findTimeIdx T ts with
      | none => rw [hf] at h; cases h
      | some w' =>
        rw [hf] at h
        obtain rfl : w = w' + 1 := by
          injection h with h'
          exact h'.symm
        rw [List.getElem?_cons_succ]
        exact ih w' hf

theorem findTimeIdx_isSome (T : Nat) :
    ∀ (ts : List (Option Nat)), some T ∈ ts → (findTimeIdx T ts).isSome = true := by
  intro ts
  induction ts with
  | nil => intro h; cases h
  | cons t ts ih =>
    intro h
    simp only [findTimeIdx]
    by_cases ht : t = some T
    · rw [if_pos ht]; rfl
    · rw [if_neg ht]
      rcases List.mem_cons.mp h with hh | hh
      · exact absurd hh.symm ht
      · have := ih hh
        cases hf : findTimeIdx T ts with
        | none => rw [hf] at this; cases this
        | some w => rfl

theorem read_task_go_chunk (buffer : List Byte) (count : Nat)
    (sent : List (List Byte)) (bs : List Byte) (rest : List ReadEvent) :
    read_task_go buffer count sent (ReadEvent.chunk bs :: rest) =
      if bs.length = 0 then (sent, ReadExit.ok)
      else if bs.length < count then (sent, ReadExit.panicked)
      else
        match memchrNl (((buffer ++ bs).drop count).take (bs.length - count)) with
        | none => read_task_go (buffer ++ bs) (count + bs.length) sent rest
        | some idx =>
          read_task_go
            ((buffer ++ bs).drop (count + bs.length - bs.length + idx + 1))
            (count + bs.length - (count + bs.length - bs.length + idx + 1))
            (sent ++ [(buffer ++ bs).take (count + bs.length - bs.length + idx + 1)])
            rest := rfl

theorem memchrNl_getElem? :
    ∀ (l : List Byte) (i : Nat), memchrNl l = some i → l[i]? = some 10 := by
  intro l
  induction l with
  | nil => intro i h; cases h
  | cons b bs ih =>
    intro i h
    simp only [memchrNl] at h
    by_cases hb : b = 10
    · rw [if_pos hb] at h
      cases h
      simp [hb]
    · rw [if_neg hb] at h
      cases hm : memchrNl bs with
      | none => rw [hm] at h; cases h
      | some j =>
        rw [hm] at h
        obtain rfl : i = j + 1 := by
          injection h with h'
          exact h'.symm
        rw [List.getElem?_cons_succ]
        exact ih j hm

theorem getLast?_take_of_getElem? {α : Type} {l : List α} {k : Nat} {a : α}
    (h : l[k]? = some a) : (l.take (k + 1)).getLast? = some a := by
  have hk : k < l.length := (List.getElem?_eq_some.mp h).1
  rw [List.getLast?_eq_getElem?, List.length_take]
  have hmin : min (k + 1) l.length = k + 1 := by omega
  rw [hmin]
  simp only [Nat.add_sub_cancel]
  rw [List.getElem?_take, if_pos (Nat.lt_succ_self k)]
  exact h

theorem eventsBytes_map_chunk : ∀ (chunks : List (List Byte)),
    eventsBytes (chunks.map ReadEvent.chunk ++ [ReadEvent.chunk []]) =
      chunks.flatten := by
  intro chunks
  induction chunks with
  | nil => rfl
  | cons c cs ih =>
    show c ++ eventsBytes (List.map ReadEvent.chunk cs ++ [ReadEvent.chunk []]) =
      (c :: cs).flatten
    rw [ih, List.flatten_cons]

theorem read_task_go_flatten_prefix :
    ∀ (events : List ReadEvent) (buffer : List Byte) (count : Nat)
      (sent : List (List Byte)),
      ((read_task_go buffer count sent events).1).flatten <+:
        sent.flatten ++ (buffer ++ eventsBytes events) := by
  intro events
  induction events with
  | nil =>
    intro buffer count sent
    exact List.prefix_append _ _
  | cons e rest ih =>
    intro buffer count sent
    cases e with
    | interrupted =>
      rw [show read_task_go buffer count sent (ReadEvent.interrupted :: rest) =
          read_task_go buffer count sent rest from rfl]
      exact ih buffer count sent
    | fatal =>
      exact List.prefix_append _ _
    | chunk bs =>
      rw [read_task_go_chunk]
      by_cases h0 : bs.length = 0
      · rw [if_pos h0]
        exact List.prefix_append _ _
      · rw [if_neg h0]
        by_cases hpc : bs.length < count
        · rw [if_pos hpc]
          exact List.prefix_append _ _
        · rw [if_neg hpc]
          cases hm : memchrNl (((buffer ++ bs).drop count).take (bs.length - count)) with
          | none =>
            have := ih (buffer ++ bs) (count + bs.length) sent
            simpa [eventsBytes, List.append_assoc] using this
          | some idx =>
            dsimp only
            have harith : count + bs.length - bs.length + idx + 1 = count + idx + 1 := by
              omega
            rw [harith]
            have := ih ((buffer ++ bs).drop (count + idx + 1))
              (count + bs.length - (count + idx + 1))
              (sent ++ [(buffer ++ bs).take (count + idx + 1)])
            simp only [List.flatten_append, List.flatten_cons, List.flatten_nil,
              List.append_nil, List.append_assoc] at this
            rw [← List.append_assoc (List.take (count + idx + 1) (buffer ++ bs))
              (List.drop (count + idx + 1) (buffer ++ bs)) (eventsBytes rest),
              List.take_append_drop] at this
            simpa [eventsBytes, List.append_assoc] using this

theorem read_task_go_lines_nl :
    ∀ (events : List ReadEvent) (buffer : List Byte) (count : Nat)
      (sent : List (List Byte)),
      (∀ l ∈ sent, l.getLast? = some (10 : Byte)) →
      ∀ l ∈ (read_task_go buffer count sent events).1, l.getLast? = some 10 := by
  intro events
  induction events with
  | nil => intro buffer count sent hsent; exact hsent
  | cons e rest ih =>
    intro buffer count sent hsent
    cases e with
    | interrupted => exact ih buffer count sent hsent
    | fatal => exact hsent
    | chunk bs =>
      rw [read_task_go_chunk]
      by_cases h0 : bs.length = 0
      · rw [if_pos h0]; exact hsent
      · rw [if_neg h0]
        by_cases hpc : bs.length < count
        · rw [if_pos hpc]; exact hsent
        · rw [if_neg hpc]
          cases hm : memchrNl (((buffer ++ bs).drop count).take (bs.length - count)) with
          | none => exact ih _ _ _ hsent
          | some idx =>
            dsimp only
            have harith : count + bs.length - bs.length + idx + 1 = count + idx + 1 := by
              omega
            rw [harith]
            refine ih _ _ _ ?_
            intro l hl
            rcases List.mem_append.mp hl with hl' | hl'
            · exact hsent l hl'
            · obtain rfl : l = (buffer ++ bs).take (count + idx + 1) :=
                List.mem_singleton.mp hl'
              have hnb := memchrNl_getElem? _ idx hm
              rw [List.getElem?_take] at hnb
              by_cases hlt : idx < bs.length - count
              · rw [if_pos hlt] at hnb
                rw [List.getElem?_drop] at hnb
                exact getLast?_take_of_getElem? hnb
              · rw [if_neg hlt] at hnb
                cases hnb

theorem flatten_end_nl :
    ∀ (L : List (List Byte)), (∀ l ∈ L, l.getLast? = some (10 : Byte)) →
      L.flatten = [] ∨ L.flatten.getLast? = some 10 := by
  intro L
  induction L using List.reverseRecOn with
  | nil => intro _; exact Or.inl rfl
  | append_singleton L' l ih =>
    intro hall
    have hl : l.getLast? = some 10 := hall l (by simp)
    have hne : l ≠ [] := by
      intro h; rw [h] at hl; cases hl
    right
    rw [List.flatten_append, List.flatten_cons, List.flatten_nil, List.append_nil,
      List.getLast?_append_of_ne_nil _ hne]
    exact hl

theorem prefix_newline_le {fs S T trail : List Byte}
    (hpre : fs <+: S) (hS : S = T ++ trail)
    (hlast : fs = [] ∨ fs.getLast? = some 10)
    (htrail : ∀ b ∈ trail, b ≠ 10) : fs <+: T := by
  rcases hlast with rfl | hlast
  · exact List.nil_prefix
  have hTpre : T <+: S := hS ▸ List.prefix_append T trail
  have hlen : fs.length ≤ T.length := by
    by_contra hgt
    push_neg at hgt
    have hfne : fs ≠ [] := by
      intro h; rw [h] at hlast; cases hlast
    have hpos : 1 ≤ fs.length := List.length_pos.mpr hfne
    have hidx : fs[fs.length - 1]? = some 10 := by
      rw [← List.getLast?_eq_getElem?]
      exact hlast
    obtain ⟨tl, htl⟩ := hpre
    have hSidx : S[fs.length - 1]? = some 10 := by
      rw [← htl, List.getElem?_append_left (by omega)]
      exact hidx
    rw [hS, List.getElem?_append_right (by omega)] at hSidx
    obtain ⟨hlt, hget⟩ := List.getElem?_eq_some.mp hSidx
    exact absurd hget (by
      have := htrail _ (List.getElem_mem hlt)
      exact this)
  exact List.prefix_of_prefix_length_le hpre hTpre hlen

theorem stdout_task_written :
    ∀ (evts : List RecvEvent), (stdout_task evts).1 = (recvOkLines evts).flatten := by
  intro evts
  induction evts with
  | nil => rfl
  | cons e rest ih =>
    cases e with
    | line l => simp only [stdout_task, recvOkLines, List.flatten_cons, ih]
    | lagged n => exact ih
    | closed => rfl

theorem mem_recvOkLines :
    ∀ (evts : List RecvEvent) (l : List Byte),
      l ∈ recvOkLines evts → RecvEvent.line l ∈ evts := by
  intro evts
  induction evts with
  | nil => intro l h; cases h
  | cons e rest ih =>
    intro l h
    cases e with
    | line l' =>
      rcases List.mem_cons.mp h with rfl | h'
      · exact List.mem_cons_self _ _
      · exact List.mem_cons_of_mem _ (ih l h')
    | lagged n => exact List.mem_cons_of_mem _ (ih l h)
    | closed => cases h

theorem minOpt3_spec (r c t : Option Nat) (T : Nat)
    (h : minOpt r (minOpt c t) = some T) :
    (∀ u, r = some u → T ≤ u) ∧ (∀ u, c = some u → T ≤ u)
    ∧ (∀ u, t = some u → T ≤ u)
    ∧ (r = some T ∨ c = some T ∨ t = some T) := by
  cases r <;> cases c <;> cases t <;> simp [minOpt] at h ⊢ <;> omega

theorem select_biased_start_spec (r c t : Option Nat) (T : Nat) (b : StartBranch)
    (hsel : select_biased_start r c t = some (T, b)) :
    ((b = StartBranch.rulesReady ↔ r = some T)
      ∧ (b = StartBranch.childExited ↔ r ≠ some T ∧ c = some T)
      ∧ (b = StartBranch.timedOut ↔ r ≠ some T ∧ c ≠ some T ∧ t = some T))
    ∧ (∀ u, r = some u → T ≤ u) ∧ (∀ u, c = some u → T ≤ u)
    ∧ (∀ u, t = some u → T ≤ u) := by
  simp only [select_biased_start] at hsel
  cases hm : minOpt r (minOpt c t) with
  | none => rw [hm] at hsel; exact absurd hsel (by simp)
  | some T0 =>
    rw [hm] at hsel
    dsimp only at hsel
    have hspec := minOpt3_spec r c t T0 hm
    by_cases hr : r = some T0
    · rw [if_pos hr] at hsel
      obtain ⟨rfl, rfl⟩ : T0 = T ∧ StartBranch.rulesReady = b := by simpa using hsel
      exact ⟨⟨by simp [hr], by simp [hr], by simp [hr]⟩,
        hspec.1, hspec.2.1, hspec.2.2.1⟩
    · rw [if_neg hr] at hsel
      by_cases hc : c = some T0
      · rw [if_pos hc] at hsel
        obtain ⟨rfl, rfl⟩ : T0 = T ∧ StartBranch.childExited = b := by simpa using hsel
        exact ⟨⟨by simp [hr], by simp [hr, hc], by simp [hc]⟩,
          hspec.1, hspec.2.1, hspec.2.2.1⟩
      · rw [if_neg hc] at hsel
        obtain ⟨rfl, rfl⟩ : T0 = T ∧ StartBranch.timedOut = b := by simpa using hsel
        have ht : t = some T0 := by
          rcases hspec.2.2.2 with h1 | h1 | h1
          · exact absurd h1 hr
          · exact absurd h1 hc
          · exact h1
        exact ⟨⟨by simp [hr], by simp [hc], by simp [hr, hc, ht]⟩,
          hspec.1, hspec.2.1, hspec.2.2.1⟩

/-! ## Claim theorems -/

/-- C1: the claim says a lag notification is fatal to the whole program and
the probe does not continue consuming lines.  The code of Matches::wait,
contradicting its own comment announcing a panic, merely logs the lag and
continues the receive loop: after Lagged(5) the probe goes on to receive
the line ready-newline, match it and complete normally. -/
theorem c1_matches_lag_eval :
    (∀ (isMatch : List Byte → Bool) (n : Nat) (rest : List RecvEvent),
      matches_wait isMatch (RecvEvent.lagged n :: rest) = matches_wait isMatch rest)
    ∧ matches_wait (fun l => l == [114, 101, 97, 100, 121, 10])
        [RecvEvent.lagged 5, RecvEvent.line [114, 101, 97, 100, 121, 10]] =
        MatchesOutcome.matched :=
  ⟨fun _ _ _ => rfl, by decide⟩

/-- C2: the claim says the reader broadcasts every completed newline-
terminated line.  The code extracts at most one line per read (a single
memchr per iteration) and scans the slice buffer[count..n]: a single read
of the bytes a-LF-b-LF followed by end of stream broadcasts only the
first line and silently drops the completed line b-LF, and a read of
three bytes with no newline followed by a two-byte read panics because
the slice range count..n is out of order. -/
theorem c2_read_task_eval :
    read_task [ReadEvent.chunk [97, 10, 98, 10], ReadEvent.chunk []] =
      ([[97, 10]], ReadExit.ok)
    ∧ read_task [ReadEvent.chunk [97, 98, 99], ReadEvent.chunk [100, 10]] =
      ([], ReadExit.panicked) := by decide

/-- C4: the claim says the short microsecond form is the string mu-s.  In
the source the tag literal is the double-UTF-8-encoded byte sequence
U+00CE U+00BC s, so parsing the literal 5-mu-s fails, while the literal
using the corrupted tag parses as 5 microseconds; the spelled-out forms
still work. -/
theorem c4_duration_mu_eval :
    durationFromStr "5μs" = none
    ∧ durationFromStr (String.mk ('5' :: muShort)) = some 5000
    ∧ durationFromStr "5microseconds" = some 5000 := by decide

/-- C3 (amended): the attempt counter starts at 0; DidntSpawn,
ExitedWhileStarting and TimedOutWhileStarting increment it and
ExitedWhileReady resets it to 0; after each outcome the loop terminates
exactly when a ceiling is configured and the counter has reached it, and
otherwise relaunches unconditionally; with ceiling N at least 1 and
every attempt failing to start it terminates after exactly N increments,
never launching an N-plus-first attempt; with no ceiling it never
terminates on its own.  (With ceiling 0 the program still launches one
attempt, because the ceiling is only checked after an outcome.) -/
theorem c3_retry_loop :
    (∀ a, stepAttempts a RunServerOutcome.DidntSpawn = a + 1
      ∧ stepAttempts a RunServerOutcome.ExitedWhileStarting = a + 1
      ∧ stepAttempts a RunServerOutcome.TimedOutWhileStarting = a + 1
      ∧ stepAttempts a RunServerOutcome.ExitedWhileReady = 0)
    ∧ (∀ (r a : Nat) (o : RunServerOutcome) (rest : List RunServerOutcome),
        r ≤ stepAttempts a o →
        mainLoop (some r) a (o :: rest) = (1, some (stepAttempts a o)))
    ∧ (∀ (r a : Nat) (o : RunServerOutcome) (rest : List RunServerOutcome),
        stepAttempts a o < r →
        mainLoop (some r) a (o :: rest) =
          ((mainLoop (some r) (stepAttempts a o) rest).1 + 1,
            (mainLoop (some r) (stepAttempts a o) rest).2))
    ∧ (∀ (N : Nat) (outs : List RunServerOutcome), 1 ≤ N → N ≤ outs.length →
        (∀ o ∈ outs, isStartFailure o = true) →
        mainLoop (some N) 0 outs = (N, some N))
    ∧ (∀ (outs : List RunServerOutcome) (a : Nat), (mainLoop none a outs).2 = none) := by
  refine ⟨fun a => ⟨rfl, rfl, rfl, rfl⟩, ?_, ?_, ?_, mainLoop_none_snd⟩
  · intro r a o rest h
    simp [mainLoop, h]
  · intro r a o rest h
    have : ¬ r ≤ stepAttempts a o := by omega
    simp [mainLoop, this]
  · intro N outs h1 h2 hall
    have := mainLoop_fail_exact outs N 0 h1 (by omega) hall
    simpa using this

/-- C3 witness: with ceiling 2 and two attempts that fail to start, the
loop launches exactly 2 attempts and terminates with the counter at 2. -/
theorem c3_retry_loop_witness :
    (1 ≤ 2
      ∧ 2 ≤ ([RunServerOutcome.DidntSpawn,
          RunServerOutcome.TimedOutWhileStarting] : List RunServerOutcome).length
      ∧ ∀ o ∈ ([RunServerOutcome.DidntSpawn,
          RunServerOutcome.TimedOutWhileStarting] : List RunServerOutcome),
          isStartFailure o = true)
    ∧ mainLoop (some 2) 0
        [RunServerOutcome.DidntSpawn, RunServerOutcome.TimedOutWhileStarting] =
        (2, some 2) :=
  ⟨⟨by decide, by decide, by decide⟩,
    c3_retry_loop.2.2.2.1 2
      [RunServerOutcome.DidntSpawn, RunServerOutcome.TimedOutWhileStarting]
      (by decide) (by decide) (by decide)⟩

/-- C3 counterexample: with a retry ceiling of 0 and a failing attempt, the
claim as stated demands termination after exactly 0 increments with no
first launch, but the loop launches one attempt and terminates only after
its outcome, with one increment performed. -/
theorem c3_ceiling_zero_cex :
    mainLoop (some 0) 0 [RunServerOutcome.DidntSpawn] = (1, some 1)
    ∧ (1 : Nat) ≠ 0 := by decide

/-- C5: an AndGroup with exactly one member rule delegates directly to
that rule's probe, and with more members completes at tick T exactly
when every member probe has signalled by T and some member signals
exactly at T (all must finish, none is cancelled by a slow sibling); an
OrGroup with exactly one AndGroup delegates directly, and with more
members completes at tick T exactly when some member group completes at
T and none completes earlier, and at that instant every member group
other than the winner is dropped (its recorded drop tick is the
completion tick T). -/
theorem c5_and_or_composition :
    (∀ r : Option Nat, and_rules_wait [r] = r)
    ∧ (∀ (rules : List (Option Nat)) (T : Nat), rules ≠ [] →
        (and_rules_wait rules = some T ↔
          (∀ f ∈ rules, ∃ u, f = some u ∧ u ≤ T) ∧ ∃ f ∈ rules, f = some T))
    ∧ (∀ g : List (Option Nat), or_rules_wait [g] = and_rules_wait g)
    ∧ (∀ (gs : List (List (Option Nat))) (T : Nat),
        or_rules_wait gs = some T ↔
          (∃ g ∈ gs, and_rules_wait g = some T) ∧
            ∀ g ∈ gs, ∀ u, and_rules_wait g = some u → T ≤ u)
    ∧ (∀ (gs : List (List (Option Nat))) (T : Nat), gs.length ≠ 1 →
        or_rules_wait gs = some T →
        ∃ w, findTimeIdx T (gs.map and_rules_wait) = some w
          ∧ (gs.map and_rules_wait)[w]? = some (some T)
          ∧ ∀ i, i < gs.length → i ≠ w →
              (or_dropped_at gs)[i]? = some (some T)) := by
  refine ⟨fun r => rfl, fun rules T hne => and_rules_wait_spec rules T hne,
    fun g => rfl, fun gs T => or_rules_wait_spec gs T, ?_⟩
  intro gs T hlen hor
  match gs, hlen with
  | [], _ =>
    exact absurd (show raceTime ([].map and_rules_wait) = some T from hor)
      (by simp [raceTime])
  | g1 :: g2 :: gs', _ =>
    have hrace : raceTime ((g1 :: g2 :: gs').map and_rules_wait) = some T := hor
    obtain ⟨hmem, -⟩ := (raceTime_spec _ T).mp hrace
    have hsome := findTimeIdx_isSome T _ hmem
    cases hf : findTimeIdx T ((g1 :: g2 :: gs').map and_rules_wait) with
    | none => rw [hf] at hsome; cases hsome
    | some w =>
      refine ⟨w, hf ▸ rfl, findTimeIdx_get T _ w hf, ?_⟩
      intro i hi hiw
      have hdrop : or_dropped_at (g1 :: g2 :: gs') =
          (List.range (g1 :: g2 :: gs').length).map
            fun j => if j = w then none else some T := by
        simp only [or_dropped_at]
        rw [hrace]
        dsimp only
        rw [hf]
      rw [hdrop, List.getElem?_map, List.getElem?_range hi]
      simp [hiw]

/-- C5 witness: the two-member AndGroup with completion ticks 3 and 5 is
nonempty and completes exactly at tick 5; the two-group OrGroup whose
groups complete at ticks 5 and 2 completes at tick 2, group 1 wins, and
group 0 is dropped at tick 2. -/
theorem c5_and_or_composition_witness :
    (([some 3, some 5] : List (Option Nat)) ≠ []
      ∧ (and_rules_wait [some 3, some 5] = some 5 ↔
          (∀ f ∈ ([some 3, some 5] : List (Option Nat)), ∃ u, f = some u ∧ u ≤ 5)
            ∧ ∃ f ∈ ([some 3, some 5] : List (Option Nat)), f = some 5))
    ∧ ∃ w, findTimeIdx 2 ([[some 3, some 5], [some 2]].map and_rules_wait) = some w
        ∧ ([[some 3, some 5], [some 2]].map and_rules_wait)[w]? = some (some 2)
        ∧ ∀ i, i < ([[some 3, some 5], [some 2]] : List (List (Option Nat))).length →
            i ≠ w → (or_dropped_at [[some 3, some 5], [some 2]])[i]? = some (some 2) :=
  ⟨⟨by decide, c5_and_or_composition.2.1 [some 3, some 5] 5 (by decide)⟩,
    c5_and_or_composition.2.2.2.2 [[some 3, some 5], [some 2]] 2
      (by decide) (by decide)⟩

/-- C7: the Starting-state race completes at the earliest ready tick; when
several futures are ready at that same tick the winning branch follows
the fixed priority rules over child-exit over timeout, and exactly one
branch is chosen (the branch value determines and is determined by which
futures are ready at the completion tick); with no starting-timeout
configured, the pending timeout future can never win the race. -/
theorem c7_starting_race :
    (∀ (r c t : Option Nat) (T : Nat) (b : StartBranch),
      select_biased_start r c t = some (T, b) →
        ((b = StartBranch.rulesReady ↔ r = some T)
          ∧ (b = StartBranch.childExited ↔ r ≠ some T ∧ c = some T)
          ∧ (b = StartBranch.timedOut ↔ r ≠ some T ∧ c ≠ some T ∧ t = some T))
        ∧ (∀ u, r = some u → T ≤ u) ∧ (∀ u, c = some u → T ≤ u)
        ∧ (∀ u, t = some u → T ≤ u))
    ∧ (∀ (r c : Option Nat) (now T : Nat) (b : StartBranch),
        select_biased_start r c (starting_timeout_fut none now) = some (T, b) →
        b ≠ StartBranch.timedOut) := by
  refine ⟨fun r c t T b h => select_biased_start_spec r c t T b h, ?_⟩
  intro r c now T b h hb
  have hspec := select_biased_start_spec r c (starting_timeout_fut none now) T b h
  have := (hspec.1.2.2).mp hb
  exact absurd this.2.2 (by simp [starting_timeout_fut])

/-- C7 witness: with rules, child exit and timeout all ready at tick 4 the
rules branch wins at tick 4, and with no timeout configured the child
branch is the winner, never the timeout branch. -/
theorem c7_starting_race_witness :
    (4 ≤ 4) ∧ StartBranch.childExited ≠ StartBranch.timedOut :=
  ⟨(c7_starting_race.1 (some 4) (some 4) (some 4) 4 StartBranch.rulesReady
      (by decide)).2.1 4 rfl,
    c7_starting_race.2 none (some 4) 7 4 StartBranch.childExited (by decide)⟩

/-- C6: both the Http and the Https probes issue HEAD requests whose URL
scheme is plain http against 127.0.0.1 on their port, with a 60-second
per-request timeout; the ports default to 80 and 443 when omitted; any
received response, whatever its status code, signals ready immediately;
and on transport errors the attempt start instants are spaced at least
one second apart (at most one attempt per second). -/
theorem c6_http_family :
    (∀ p : Nat, http_wait_request p =
        { url := "http://127.0.0.1:" ++ toString p, timeoutSecs := 60 }
      ∧ https_wait_request p = http_wait_request p)
    ∧ (http_build_port none = 80 ∧ https_build_port none = 443
      ∧ ∀ p : Nat, http_build_port (some p) = p ∧ https_build_port (some p) = p)
    ∧ (∀ (now s d : Nat) (rest : List HttpAttempt),
        http_family_run now (HttpAttempt.response s d :: rest) = ([now], true))
    ∧ (∀ (now : Nat) (attempts : List HttpAttempt),
        ((http_family_run now attempts).2 = true ↔
          ∃ s d, HttpAttempt.response s d ∈ attempts))
    ∧ (∀ (now : Nat) (attempts : List HttpAttempt),
        List.Chain' (fun a b => a + 1000 ≤ b) (http_family_run now attempts).1) :=
  ⟨fun _ => ⟨rfl, rfl⟩, ⟨rfl, rfl, fun _ => ⟨rfl, rfl⟩⟩,
    fun _ _ _ _ => rfl,
    fun now attempts => http_family_run_ready_iff attempts now,
    fun now attempts => http_family_run_chain attempts now⟩

/-- C9: a rule expression with a port clause parses only when the digit
run denotes an integer between 1 and 65535: for every all-digit run ds,
the tcp rule built around port ds succeeds exactly when digitsToNat ds
is in that range (so port 0, an empty run and any run exceeding 65535
are parse errors), and the shared port-clause parser used by the tcp,
http and https rules returns the port under exactly the same
condition. -/
theorem c9_port_range (ds : List Char) (h : ∀ c ∈ ds, c.isDigit = true) :
    ((parse_tcp ("tcp port ".data ++ (ds ++ ' ' :: "ready".data))).isSome ↔
      1 ≤ digitsToNat ds ∧ digitsToNat ds ≤ 65535)
    ∧ parse_port ("port ".data ++ (ds ++ ' ' :: "ready".data)) =
        (if 1 ≤ digitsToNat ds ∧ digitsToNat ds ≤ 65535
         then some (digitsToNat ds, ' ' :: "ready".data) else none) := by
  have hport := parse_port_digits ds h
  refine ⟨?_, hport⟩
  simp only [parse_tcp]
  rw [show tagNoCase "tcp".data ("tcp port ".data ++ (ds ++ ' ' :: "ready".data)) =
      some (' ' :: ("port ".data ++ (ds ++ ' ' :: "ready".data))) from rfl]
  dsimp only
  rw [show space1 (' ' :: ("port ".data ++ (ds ++ ' ' :: "ready".data))) =
      some ("port ".data ++ (ds ++ ' ' :: "ready".data)) from rfl]
  dsimp only
  rw [hport]
  by_cases hc : 1 ≤ digitsToNat ds ∧ digitsToNat ds ≤ 65535
  · rw [if_pos hc]
    dsimp only
    rw [show space1 (' ' :: "ready".data) = some ("ready".data) from rfl]
    dsimp only
    rw [show tagNoCase "ready".data "ready".data = some [] from rfl]
    simpa using hc
  · rw [if_neg hc]
    simpa using hc

/-- C9 witness: the digit run 8080 is all digits, the tcp rule with it
parses, and the port clause returns 8080. -/
theorem c9_port_range_witness :
    (∀ c ∈ "8080".data, c.isDigit = true)
    ∧ ((parse_tcp ("tcp port ".data ++ ("8080".data ++ ' ' :: "ready".data))).isSome ↔
        1 ≤ digitsToNat "8080".data ∧ digitsToNat "8080".data ≤ 65535)
    ∧ parse_port ("port ".data ++ ("8080".data ++ ' ' :: "ready".data)) =
        (if 1 ≤ digitsToNat "8080".data ∧ digitsToNat "8080".data ≤ 65535
         then some (digitsToNat "8080".data, ' ' :: "ready".data) else none) :=
  ⟨by decide, (c9_port_range "8080".data (by decide)).1,
    (c9_port_range "8080".data (by decide)).2⟩

/-- C10: trailing bytes of the child stdout not terminated by a newline
are silently discarded at end of stream: the concatenation of all
broadcast lines is a prefix of the stream truncated at its final newline
(so the trailing segment is never part of any broadcast line), the
stdout mirror writes exactly the concatenation of the lines it receives,
and every line it receives — all of them broadcast lines — lies inside
the truncated stream, never touching the trailing segment. -/
theorem c10_trailing_bytes_discarded
    (chunks : List (List Byte)) (T trail : List Byte) (evts : List RecvEvent)
    (hsplit : chunks.flatten = T ++ trail)
    (htrail : ∀ b ∈ trail, b ≠ 10)
    (_hne : trail ≠ [])
    (hsub : recvLinesFrom evts
      (read_task (chunks.map ReadEvent.chunk ++ [ReadEvent.chunk []])).1 = true) :
    (read_task (chunks.map ReadEvent.chunk ++ [ReadEvent.chunk []])).1.flatten <+: T
    ∧ (stdout_task evts).1 = (recvOkLines evts).flatten
    ∧ ∀ l ∈ recvOkLines evts, l <:+: T := by
  have hpre : (read_task (chunks.map ReadEvent.chunk ++
      [ReadEvent.chunk []])).1.flatten <+: chunks.flatten := by
    have h := read_task_go_flatten_prefix
      (chunks.map ReadEvent.chunk ++ [ReadEvent.chunk []]) [] 0 []
    rw [eventsBytes_map_chunk] at h
    exact h
  have hnl : ∀ l ∈ (read_task (chunks.map ReadEvent.chunk ++
      [ReadEvent.chunk []])).1, l.getLast? = some 10 :=
    read_task_go_lines_nl (chunks.map ReadEvent.chunk ++ [ReadEvent.chunk []])
      [] 0 [] (by intro l hl; cases hl)
  have hT : (read_task (chunks.map ReadEvent.chunk ++
      [ReadEvent.chunk []])).1.flatten <+: T :=
    prefix_newline_le hpre hsplit (flatten_end_nl _ hnl) htrail
  refine ⟨hT, stdout_task_written evts, ?_⟩
  intro l hl
  have hline := mem_recvOkLines evts l hl
  have hmem : l ∈ (read_task (chunks.map ReadEvent.chunk ++
      [ReadEvent.chunk []])).1 := by
    have h := (List.all_eq_true.mp hsub) _ hline
    exact List.elem_iff.mp h
  exact (List.infix_of_mem_flatten hmem).trans hT.isInfix

/-- C10 witness: the stream ab-newline-c delivered as one chunk followed by
end of stream: the broadcast is the single line ab-newline, a prefix of
the newline-terminated head, the mirror receives it and writes exactly
it, and the trailing byte c is neither broadcast nor written. -/
theorem c10_trailing_bytes_discarded_witness :
    (([[97, 98, 10, 99]] : List (List Byte)).flatten = [97, 98, 10] ++ [99]
      ∧ (∀ b ∈ ([99] : List Byte), b ≠ 10) ∧ ([99] : List Byte) ≠ []
      ∧ recvLinesFrom [RecvEvent.line [97, 98, 10], RecvEvent.closed]
          (read_task ([[97, 98, 10, 99]].map ReadEvent.chunk ++
            [ReadEvent.chunk []])).1 = true)
    ∧ ((read_task ([[97, 98, 10, 99]].map ReadEvent.chunk ++
          [ReadEvent.chunk []])).1.flatten <+: [97, 98, 10]
      ∧ (stdout_task [RecvEvent.line [97, 98, 10], RecvEvent.closed]).1 =
          (recvOkLines [RecvEvent.line [97, 98, 10], RecvEvent.closed]).flatten
      ∧ ∀ l ∈ recvOkLines [RecvEvent.line [97, 98, 10], RecvEvent.closed],
          l <:+: [97, 98, 10]) :=
  ⟨⟨by decide, by decide, by decide, by decide⟩,
    c10_trailing_bytes_discarded [[97, 98, 10, 99]] [97, 98, 10] [99]
      [RecvEvent.line [97, 98, 10], RecvEvent.closed]
      (by decide) (by decide) (by decide) (by decide)⟩

/-- C8: if the log channel closes before any received line matches the
pattern, the Matches probe suspends forever (the pending().await branch)
instead of returning or signalling failure, whatever events follow. -/
theorem c8_closed_suspends (isMatch : List Byte → Bool)
    (pre rest : List RecvEvent) (h : noLineMatches isMatch pre = true) :
    matches_wait isMatch (pre ++ RecvEvent.closed :: rest) =
      MatchesOutcome.suspendedForever := by
  induction pre with
  | nil => rfl
  | cons e pre ih =>
    cases e with
    | line l =>
      simp only [noLineMatches, List.all_cons, Bool.and_eq_true, Bool.not_eq_true'] at h
      simp only [List.cons_append, matches_wait, h.1, if_false]
      exact ih (by simp [noLineMatches, h.2])
    | lagged n =>
      simp only [noLineMatches, List.all_cons, Bool.and_eq_true] at h
      simp only [List.cons_append, matches_wait]
      exact ih (by simp [noLineMatches, h.2])
    | closed => rfl

/-- C8 witness: a non-matching line and a lag notification, then Closed,
then a line that would have matched: the probe is suspended forever. -/
theorem c8_closed_suspends_witness :
    noLineMatches (fun l => l == [114, 101, 97, 100, 121, 10])
      [RecvEvent.line [102, 111, 111, 10], RecvEvent.lagged 2] = true
    ∧ matches_wait (fun l => l == [114, 101, 97, 100, 121, 10])
        ([RecvEvent.line [102, 111, 111, 10], RecvEvent.lagged 2] ++
          RecvEvent.closed :: [RecvEvent.line [114, 101, 97, 100, 121, 10]]) =
        MatchesOutcome.suspendedForever :=
  ⟨by decide,
    c8_closed_suspends (fun l => l == [114, 101, 97, 100, 121, 10])
      [RecvEvent.line [102, 111, 111, 10], RecvEvent.lagged 2]
      [RecvEvent.line [114, 101, 97, 100, 121, 10]] (by decide)⟩

end Defib
